import Mathlib

/-!
Verification of the data-collection orchestration core of the
`data-collection-endpoints` repository.

Each definition below is a shallow embedding of a function of the source:
* `deduplicatePackages`  — `maliciousPackageService.deduplicatePackages`
* `collectPackageData`   — `DataCollectionOrchestrator.collectPackageData`
* `batchCollectPackages` — `DataCollectionOrchestrator.batchCollectPackages`
* `collectLabeledTrainingData` — `DataCollectionOrchestrator.collectLabeledTrainingData`
* `apiCallWithRetry`     — `apiCallWithRetry` of `utils/rateLimiter.js`
* `RateLimiterState` and its operations — class `RateLimiter` of `utils/rateLimiter.js`
* `buildDependencyTree`  — `dependenciesService.buildDependencyTree`

External fetchers (network calls) are passed in as function arguments whose
results are `Except String _`; a JavaScript `throw` is `.error msg`.
Clock readings (`Date.now()`) are explicit natural-number arguments, and the
suspensions performed by `sleep` are returned as explicit durations.
-/

namespace DataCollect

/-- Confidence levels carried by package records (the strings
`"low" | "medium" | "high" | "very-high"` of the source). -/
inductive Confidence where
  | low
  | medium
  | high
  | veryHigh
deriving DecidableEq, Repr

/-- Numeric rank of a confidence level, used to express one level being
lower than another. -/
def Confidence.rank : Confidence → Nat
  | .low => 0
  | .medium => 1
  | .high => 2
  | .veryHigh => 3

/-- A package record flowing through `deduplicatePackages`.  Raw records from
the fetchers carry an empty `sources` list (the JS objects have no `sources`
field before merging; the field is written, never read, on first insertion). -/
structure Pkg where
  name : String
  version : String
  label : String
  source : String
  confidence : Confidence
  sources : List String := []
deriving DecidableEq, Repr

/-- The dedup key: the template string `` `${pkg.name}@${pkg.version}` ``. -/
def keyOf (p : Pkg) : String := p.name ++ "@" ++ p.version

/-- `map.get(key)` on the insertion-ordered association list that models the
JS `Map`. -/
def findEntry (k : String) (m : List (String × Pkg)) : Option Pkg :=
  (m.find? (fun e => e.1 == k)).map (fun e => e.2)

/-- In-place mutation of the entry stored under `k` (JS mutates the object
returned by `map.get(key)`). -/
def updateEntry (k : String) (f : Pkg → Pkg) (m : List (String × Pkg)) :
    List (String × Pkg) :=
  m.map (fun e => if e.1 == k then (e.1, f e.2) else e)

/-- The source list after the dedup loop's union step: `push` the incoming
record's source unless `includes` already reports it. -/
def mergeSources (pkg existing : Pkg) : List String :=
  if existing.sources.contains pkg.source then existing.sources
  else existing.sources ++ [pkg.source]

/-- The mutation applied to an existing entry by the dedup loop: union the
incoming record's source into `existing.sources`, then, whenever the list now
has more than one element, set the confidence to `"high"`. -/
def mergeInto (pkg existing : Pkg) : Pkg :=
  { existing with
    sources := mergeSources pkg existing,
    confidence := if 1 < (mergeSources pkg existing).length then Confidence.high
                  else existing.confidence }

/-- One iteration of the loop body of
`maliciousPackageService.deduplicatePackages`:
if the key is absent, insert `{...pkg, sources: [pkg.source]}`; otherwise
mutate the existing entry with `mergeInto`. -/
def mergeStep (m : List (String × Pkg)) (pkg : Pkg) : List (String × Pkg) :=
  match findEntry (keyOf pkg) m with
  | none => m ++ [(keyOf pkg, { pkg with sources := [pkg.source] })]
  | some _ => updateEntry (keyOf pkg) (mergeInto pkg) m

/-- `maliciousPackageService.deduplicatePackages`: fold the records into a
fresh insertion-ordered map and return `Array.from(map.values())`. -/
def deduplicatePackages (packages : List Pkg) : List Pkg :=
  (packages.foldl mergeStep []).map (fun e => e.2)

/-! Concrete records used to exercise `deduplicatePackages`. -/

def caPkgA : Pkg :=
  { name := "evil", version := "1.0.0", label := "malicious",
    source := "research-backstabbers", confidence := .veryHigh }

def caPkgB : Pkg :=
  { name := "evil", version := "1.0.0", label := "malicious",
    source := "osv", confidence := .medium }

def caMerged : Pkg :=
  { name := "evil", version := "1.0.0", label := "malicious",
    source := "research-backstabbers", confidence := .high,
    sources := ["research-backstabbers", "osv"] }

/-! ### Dedup/merge engine: confidence behaviour (C3) -/

/-- Invariant of the merge loop: stored records have duplicate-free source
lists, and a record corroborated by at least two distinct sources carries
confidence exactly `"high"`. -/
def GoodRecord (p : Pkg) : Prop :=
  p.sources.Nodup ∧ (2 ≤ p.sources.length → p.confidence = Confidence.high)

theorem mergeSources_nodup (pkg q : Pkg) (hq : q.sources.Nodup) :
    (mergeSources pkg q).Nodup ∧ q.sources.length ≤ (mergeSources pkg q).length := by
  unfold mergeSources
  by_cases hc : q.sources.contains pkg.source = true
  · rw [if_pos hc]; exact ⟨hq, le_refl _⟩
  · rw [if_neg hc]
    have hnotmem : pkg.source ∉ q.sources := fun hmem => hc (List.elem_iff.2 hmem)
    constructor
    · simp [List.nodup_append, hq, hnotmem]
    · simp

theorem goodRecord_mergeInto (pkg q : Pkg) (hq : q.sources.Nodup) :
    GoodRecord (mergeInto pkg q) := by
  have hsrc := mergeSources_nodup pkg q hq
  unfold GoodRecord mergeInto
  refine ⟨hsrc.1, fun hlen => ?_⟩
  exact if_pos (by simp only [] at hlen; omega)

theorem goodRecord_mergeStep {m : List (String × Pkg)} {pkg : Pkg}
    (h : ∀ e ∈ m, e.2.sources.Nodup) :
    ∀ e ∈ mergeStep m pkg, GoodRecord e.2 ∨ e ∈ m := by
  intro e he
  unfold mergeStep at he
  split at he
  · rcases List.mem_append.1 he with h1 | h1
    · exact Or.inr h1
    · rcases List.mem_singleton.1 h1 with rfl
      exact Or.inl ⟨List.nodup_singleton _, by intro hlen; simp at hlen⟩
  · unfold updateEntry at he
    rcases List.mem_map.1 he with ⟨e', he', rfl⟩
    by_cases hk : (e'.1 == keyOf pkg) = true
    · rw [if_pos hk]
      exact Or.inl (goodRecord_mergeInto pkg e'.2 (h e' he'))
    · rw [if_neg hk]
      exact Or.inr he'

theorem goodRecord_foldl (l : List Pkg) :
    ∀ m, (∀ e ∈ m, GoodRecord e.2) →
      ∀ e ∈ l.foldl mergeStep m, GoodRecord e.2 := by
  induction l with
  | nil => intro m hm e he; exact hm e he
  | cons p l ih =>
    intro m hm e he
    refine ih (mergeStep m p) ?_ e he
    intro e' he'
    rcases goodRecord_mergeStep (fun e'' he'' => (hm e'' he'').1) e' he' with hg | hmem
    · exact hg
    · exact hm e' hmem

/-- C3, counterexample: a record entering the merge with confidence
`"very-high"` and corroborated by a second distinct source leaves the merge
with confidence `"high"` — a strictly lower level.  This refutes the claim
that `deduplicatePackages` never lowers a record's confidence. -/
theorem dedup_confidence_downgrade_cex :
    (deduplicatePackages [caPkgA, caPkgB]).map Pkg.confidence = [Confidence.high]
    ∧ caPkgA.confidence = Confidence.veryHigh
    ∧ Confidence.rank Confidence.high < Confidence.rank Confidence.veryHigh := by
  refine ⟨by decide, by decide, by decide⟩

/-- C3 (amended): in every output of `deduplicatePackages` the accumulated
source list of a record is duplicate-free, and any record corroborated by at
least two distinct sources exits with confidence exactly `"high"` (so in
particular within `{high, very-high}`).  The escalation is not monotonic:
the confidence of a multi-source record is overwritten to `"high"` even if
the record entered with `"very-high"` (see the counterexample). -/
theorem dedup_two_sources_confidence_high :
    ∀ (packages : List Pkg), ∀ r ∈ deduplicatePackages packages,
      r.sources.Nodup ∧ (2 ≤ r.sources.length → r.confidence = Confidence.high) := by
  intro packages r hr
  rcases List.mem_map.1 hr with ⟨e, he, rfl⟩
  exact goodRecord_foldl packages [] (by intro e h; simp at h) e he

/-- Witness for C3 (amended) at the concrete corroborated record. -/
theorem dedup_two_sources_confidence_high_witness :
    caMerged.sources.Nodup
    ∧ (2 ≤ caMerged.sources.length → caMerged.confidence = Confidence.high) :=
  dedup_two_sources_confidence_high [caPkgA, caPkgB] caMerged (by decide)

/-! ### Dedup/merge engine: map-shape lemmas (shared by C7 and C8) -/

theorem updateEntry_keys (k : String) (f : Pkg → Pkg) (m : List (String × Pkg)) :
    (updateEntry k f m).map (fun e => e.1) = m.map (fun e => e.1) := by
  unfold updateEntry
  rw [List.map_map]
  refine List.map_congr_left fun e _ => ?_
  dsimp only [Function.comp]
  split <;> rfl

theorem findEntry_eq_none_iff {k : String} {m : List (String × Pkg)} :
    findEntry k m = none ↔ ∀ e ∈ m, e.1 ≠ k := by
  unfold findEntry
  simp [List.find?_eq_none]

theorem mergeInto_name (pkg q : Pkg) : (mergeInto pkg q).name = q.name := rfl

theorem mergeInto_version (pkg q : Pkg) : (mergeInto pkg q).version = q.version := rfl

theorem keyOf_mergeInto (pkg q : Pkg) : keyOf (mergeInto pkg q) = keyOf q := rfl

theorem mergeStep_entry_key {m : List (String × Pkg)} {pkg : Pkg}
    (h : ∀ e ∈ m, e.1 = keyOf e.2) :
    ∀ e ∈ mergeStep m pkg, e.1 = keyOf e.2 := by
  intro e he
  unfold mergeStep at he
  split at he
  · rcases List.mem_append.1 he with h1 | h1
    · exact h e h1
    · rcases List.mem_singleton.1 h1 with rfl
      rfl
  · unfold updateEntry at he
    rcases List.mem_map.1 he with ⟨e', he', rfl⟩
    by_cases hk : (e'.1 == keyOf pkg) = true
    · rw [if_pos hk]
      show e'.1 = keyOf (mergeInto pkg e'.2)
      rw [keyOf_mergeInto]
      exact h e' he'
    · rw [if_neg hk]
      exact h e' he'

theorem foldl_entry_key (l : List Pkg) :
    ∀ m, (∀ e ∈ m, e.1 = keyOf e.2) →
      ∀ e ∈ l.foldl mergeStep m, e.1 = keyOf e.2 := by
  induction l with
  | nil => intro m hm; exact hm
  | cons p l ih =>
    intro m hm
    exact ih (mergeStep m p) (mergeStep_entry_key hm)

theorem mergeStep_keys_nodup {m : List (String × Pkg)} {pkg : Pkg}
    (h : (m.map (fun e => e.1)).Nodup) :
    ((mergeStep m pkg).map (fun e => e.1)).Nodup := by
  unfold mergeStep
  split
  next hfind =>
    have hfresh := findEntry_eq_none_iff.1 hfind
    rw [List.map_append]
    simp only [List.map_cons, List.map_nil]
    rw [List.nodup_append]
    refine ⟨h, List.nodup_singleton _, ?_⟩
    intro x hx
    rcases List.mem_map.1 hx with ⟨e, he, rfl⟩
    simp only [List.mem_singleton]
    exact fun heq => hfresh e he heq
  next q hfind =>
    rw [updateEntry_keys]
    exact h

theorem foldl_keys_nodup (l : List Pkg) :
    ∀ m, ((m.map (fun e => e.1)).Nodup) →
      (((l.foldl mergeStep m).map (fun e => e.1)).Nodup) := by
  induction l with
  | nil => intro m hm; exact hm
  | cons p l ih =>
    intro m hm
    exact ih (mergeStep m p) (mergeStep_keys_nodup hm)

theorem dedup_keys_nodup (l : List Pkg) :
    ((deduplicatePackages l).map keyOf).Nodup := by
  unfold deduplicatePackages
  rw [List.map_map]
  have hkey : ∀ e ∈ l.foldl mergeStep [], e.1 = keyOf e.2 :=
    foldl_entry_key l [] (by intro e he; simp at he)
  have hcongr : (l.foldl mergeStep []).map (fun e => keyOf e.2)
      = (l.foldl mergeStep []).map (fun e => e.1) :=
    List.map_congr_left fun e he => (hkey e he).symm
  rw [show (keyOf ∘ fun e : String × Pkg => e.2) = fun e : String × Pkg => keyOf e.2 from rfl]
  rw [hcongr]
  exact foldl_keys_nodup l [] (by simp)

/-! ### Dedup/merge engine: idempotence (C7) -/

theorem foldl_mergeStep_of_fresh (l : List Pkg) :
    ∀ m, (∀ e ∈ m, ∀ p ∈ l, e.1 ≠ keyOf p) → ((l.map keyOf).Nodup) →
      l.foldl mergeStep m
        = m ++ l.map (fun r => (keyOf r, { r with sources := [r.source] })) := by
  induction l with
  | nil => intro m _ _; simp
  | cons p l ih =>
    intro m hfresh hnodup
    have hnone : findEntry (keyOf p) m = none :=
      findEntry_eq_none_iff.2 fun e he => hfresh e he p (List.mem_cons_self _ _)
    have hstep : mergeStep m p = m ++ [(keyOf p, { p with sources := [p.source] })] := by
      unfold mergeStep
      rw [hnone]
    rw [List.foldl_cons, hstep, ih]
    · simp
    · intro e he q hq
      rcases List.mem_append.1 he with h1 | h1
      · exact hfresh e h1 q (List.mem_cons_of_mem _ hq)
      · rcases List.mem_singleton.1 h1 with rfl
        simp only [List.map_cons, List.nodup_cons] at hnodup
        intro heq
        have heq' : keyOf p = keyOf q := heq
        exact hnodup.1 (heq' ▸ List.mem_map_of_mem keyOf hq)
    · simp only [List.map_cons, List.nodup_cons] at hnodup
      exact hnodup.2

def c7PkgA : Pkg :=
  { name := "bad-pad", version := "0.0.1", label := "malicious",
    source := "github-advisory", confidence := .high }

def c7PkgB : Pkg :=
  { name := "bad-pad", version := "0.0.1", label := "malicious",
    source := "osv", confidence := .medium }

/-- C7, counterexample: re-merging an already-merged list is NOT a no-op —
the accumulated two-element `sources` union collapses back to the singleton
`[record.source]`, because the re-inserted record is rebuilt as
`{...pkg, sources: [pkg.source]}`. -/
theorem dedup_not_idempotent_cex :
    deduplicatePackages (deduplicatePackages [c7PkgA, c7PkgB])
      ≠ deduplicatePackages [c7PkgA, c7PkgB]
    ∧ (deduplicatePackages [c7PkgA, c7PkgB]).map Pkg.sources
        = [["github-advisory", "osv"]]
    ∧ (deduplicatePackages (deduplicatePackages [c7PkgA, c7PkgB])).map Pkg.sources
        = [["github-advisory"]] := by
  refine ⟨by decide, by decide, by decide⟩

/-- C7 (amended): re-merging an already-merged list preserves the records —
their keys, scalar fields and confidences — except that every record's
accumulated `sources` union is reset to the singleton of its primary
`source` field.  Full idempotence therefore holds exactly for those outputs
whose records all carry a single source, and fails otherwise (see the
counterexample). -/
theorem dedup_idempotent_up_to_sources :
    ∀ l : List Pkg,
      deduplicatePackages (deduplicatePackages l)
        = (deduplicatePackages l).map (fun r => { r with sources := [r.source] }) := by
  intro l
  show ((deduplicatePackages l).foldl mergeStep []).map (fun e => e.2) = _
  rw [foldl_mergeStep_of_fresh (deduplicatePackages l) []
    (by intro e he; simp at he) (dedup_keys_nodup l)]
  simp

/-! ### Dedup/merge engine: order and grouping sensitivity (C8) -/

/-- All sources contributed to a given key by a record list, in input order. -/
def sourcesOfKey (l : List Pkg) (k : String) : List String :=
  (l.filter (fun p => keyOf p == k)).map (fun p => p.source)

theorem mem_mergeSources (pkg q : Pkg) (s : String) :
    s ∈ mergeSources pkg q ↔ s ∈ q.sources ∨ s = pkg.source := by
  unfold mergeSources
  by_cases hc : q.sources.contains pkg.source = true
  · rw [if_pos hc]
    have hmem : pkg.source ∈ q.sources := List.elem_iff.1 hc
    constructor
    · exact Or.inl
    · rintro (h | rfl)
      · exact h
      · exact hmem
  · rw [if_neg hc]
    simp

theorem findEntry_cons (k : String) (e : String × Pkg) (t : List (String × Pkg)) :
    findEntry k (e :: t)
      = if (e.1 == k) = true then some e.2 else findEntry k t := by
  unfold findEntry
  by_cases h : (e.1 == k) = true
  · rw [@List.find?_cons_of_pos _ (fun x => x.1 == k) e t h, if_pos h]
    rfl
  · rw [@List.find?_cons_of_neg _ (fun x => x.1 == k) e t h, if_neg h]

theorem findEntry_append_single (k k0 : String) (v : Pkg) (m : List (String × Pkg)) :
    findEntry k (m ++ [(k0, v)])
      = (findEntry k m).or (if (k0 == k) = true then some v else none) := by
  unfold findEntry
  rw [List.find?_append]
  cases hf : List.find? (fun e : String × Pkg => e.1 == k) m with
  | some e => simp
  | none =>
    by_cases hk : (k0 == k) = true
    · simp [List.find?, hk]
    · simp [List.find?, hk]

theorem findEntry_updateEntry (k k0 : String) (f : Pkg → Pkg)
    (m : List (String × Pkg)) :
    findEntry k (updateEntry k0 f m)
      = if k = k0 then (findEntry k0 m).map f else findEntry k m := by
  induction m with
  | nil => by_cases hkk : k = k0 <;> simp [updateEntry, findEntry, hkk]
  | cons e t ih =>
    show findEntry k ((if (e.1 == k0) = true then (e.1, f e.2) else e) :: updateEntry k0 f t) = _
    rw [findEntry_cons]
    by_cases hkk : k = k0
    · subst hkk
      simp only [if_pos rfl] at ih ⊢
      rw [findEntry_cons]
      by_cases he : (e.1 == k) = true
      · rw [if_pos he]
        simp [he]
      · rw [if_neg he]
        simp [he, ih]
    · rw [if_neg hkk] at ih ⊢
      rw [findEntry_cons k e t]
      by_cases he0 : (e.1 == k0) = true
      · rw [if_pos he0]
        have he : ¬(e.1 == k) = true := by
          intro h
          exact hkk ((eq_of_beq h).symm.trans (eq_of_beq he0))
        simp [he, ih]
      · rw [if_neg he0]
        by_cases he : (e.1 == k) = true
        · simp [he]
        · simp [he, ih]

theorem sourcesOfKey_append (l1 l2 : List Pkg) (k : String) :
    sourcesOfKey (l1 ++ l2) k = sourcesOfKey l1 k ++ sourcesOfKey l2 k := by
  simp [sourcesOfKey, List.filter_append]

theorem sourcesOfKey_single (p : Pkg) (k : String) :
    sourcesOfKey [p] k
      = if (keyOf p == k) = true then [p.source] else [] := by
  unfold sourcesOfKey
  by_cases h : (keyOf p == k) = true
  · simp [List.filter, h]
  · simp [List.filter, h]

theorem sourcesOfKey_eq_nil {l : List Pkg} {k : String}
    (h : ∀ p ∈ l, keyOf p ≠ k) : sourcesOfKey l k = [] := by
  unfold sourcesOfKey
  rw [List.filter_eq_nil_iff.2 fun p hp => by simpa using h p hp]
  rfl

/-- The invariant relating the dedup map to the prefix of records already
processed: every absent key is uncontributed, every present key was
contributed, and a stored record's `sources` holds exactly the sources
contributed to its key. -/
def MapTracks (seen : List Pkg) (m : List (String × Pkg)) : Prop :=
  (∀ k, findEntry k m = none → ∀ p ∈ seen, keyOf p ≠ k) ∧
  (∀ k r, findEntry k m = some r → ∃ p ∈ seen, keyOf p = k) ∧
  (∀ k r, findEntry k m = some r → ∀ s, s ∈ r.sources ↔ s ∈ sourcesOfKey seen k)

theorem mapTracks_step {seen : List Pkg} {m : List (String × Pkg)} {pkg : Pkg}
    (h : MapTracks seen m) : MapTracks (seen ++ [pkg]) (mergeStep m pkg) := by
  obtain ⟨h1, h2, h3⟩ := h
  unfold mergeStep
  split
  next hfind =>
    refine ⟨?_, ?_, ?_⟩
    · intro k hk p hp
      rw [findEntry_append_single] at hk
      cases hfm : findEntry k m with
      | some r => rw [hfm] at hk; simp at hk
      | none =>
        rw [hfm] at hk
        simp only [Option.none_or] at hk
        rcases List.mem_append.1 hp with hp | hp
        · exact h1 k hfm p hp
        · rcases List.mem_singleton.1 hp with rfl
          intro heq
          rw [if_pos (by simp [heq])] at hk
          exact absurd hk (by simp)
    · intro k r hk
      rw [findEntry_append_single] at hk
      cases hfm : findEntry k m with
      | some q =>
        obtain ⟨p, hp, hkey⟩ := h2 k q hfm
        exact ⟨p, List.mem_append_left _ hp, hkey⟩
      | none =>
        rw [hfm] at hk
        simp only [Option.none_or] at hk
        by_cases hke : (keyOf pkg == k) = true
        · exact ⟨pkg, List.mem_append_right _ (List.mem_singleton_self _), eq_of_beq hke⟩
        · rw [if_neg hke] at hk; exact absurd hk (by simp)
    · intro k r hk s
      rw [findEntry_append_single] at hk
      rw [sourcesOfKey_append, sourcesOfKey_single]
      cases hfm : findEntry k m with
      | some q =>
        rw [hfm] at hk
        have hqr : q = r := by simpa using hk
        subst hqr
        have hne : ¬(keyOf pkg == k) = true := by
          intro hb
          rw [← eq_of_beq hb] at hfm
          rw [hfind] at hfm
          exact absurd hfm (by simp)
        rw [if_neg hne]
        simp only [List.append_nil]
        exact h3 k q hfm s
      | none =>
        rw [hfm] at hk
        simp only [Option.none_or] at hk
        by_cases hke : (keyOf pkg == k) = true
        · rw [if_pos hke] at hk ⊢
          obtain rfl : ({ pkg with sources := [pkg.source] } : Pkg) = r := by
            simpa using hk
          rw [sourcesOfKey_eq_nil (h1 k hfm)]
          simp
        · rw [if_neg hke] at hk; exact absurd hk (by simp)
  next q hfind =>
    refine ⟨?_, ?_, ?_⟩
    · intro k hk p hp
      rw [findEntry_updateEntry] at hk
      by_cases hkk : k = keyOf pkg
      · subst hkk
        rw [if_pos rfl, hfind] at hk
        exact absurd hk (by simp)
      · rw [if_neg hkk] at hk
        rcases List.mem_append.1 hp with hp | hp
        · exact h1 k hk p hp
        · rcases List.mem_singleton.1 hp with rfl
          exact fun heq => hkk heq.symm
    · intro k r hk
      rw [findEntry_updateEntry] at hk
      by_cases hkk : k = keyOf pkg
      · subst hkk
        exact ⟨pkg, List.mem_append_right _ (List.mem_singleton_self _), rfl⟩
      · rw [if_neg hkk] at hk
        obtain ⟨p, hp, hkey⟩ := h2 k r hk
        exact ⟨p, List.mem_append_left _ hp, hkey⟩
    · intro k r hk s
      rw [findEntry_updateEntry] at hk
      rw [sourcesOfKey_append, sourcesOfKey_single]
      by_cases hkk : k = keyOf pkg
      · subst hkk
        rw [if_pos rfl, hfind] at hk
        obtain rfl : mergeInto pkg q = r := by simpa using hk
        rw [if_pos (by simp)]
        show s ∈ mergeSources pkg q ↔ _
        rw [mem_mergeSources, List.mem_append, List.mem_singleton]
        exact or_congr (h3 _ q hfind s) Iff.rfl
      · rw [if_neg hkk] at hk
        have hne : ¬(keyOf pkg == k) = true := fun hb => hkk (eq_of_beq hb).symm
        rw [if_neg hne]
        simp only [List.append_nil]
        exact h3 k r hk s

theorem mapTracks_nil : MapTracks [] [] := by
  refine ⟨?_, ?_, ?_⟩
  · intro k _ p hp
    simp at hp
  · intro k r h
    simp [findEntry] at h
  · intro k r h
    simp [findEntry] at h

theorem mapTracks_foldl (l : List Pkg) :
    ∀ seen m, MapTracks seen m → MapTracks (seen ++ l) (l.foldl mergeStep m) := by
  induction l with
  | nil => intro seen m h; simpa using h
  | cons p l ih =>
    intro seen m h
    have h' := ih (seen ++ [p]) (mergeStep m p) (mapTracks_step h)
    simpa using h'

theorem mapTracks_dedup (l : List Pkg) : MapTracks l (l.foldl mergeStep []) := by
  simpa using mapTracks_foldl l [] [] mapTracks_nil

theorem findEntry_of_mem_entries {m : List (String × Pkg)}
    (hn : (m.map (fun e => e.1)).Nodup) {e : String × Pkg} (he : e ∈ m) :
    findEntry e.1 m = some e.2 := by
  induction m with
  | nil => simp at he
  | cons a t ih =>
    simp only [List.map_cons, List.nodup_cons] at hn
    rcases List.mem_cons.1 he with rfl | he
    · rw [findEntry_cons, if_pos (by simp)]
    · rw [findEntry_cons]
      have hne : ¬(a.1 == e.1) = true := by
        intro hb
        exact hn.1 ((eq_of_beq hb) ▸ List.mem_map_of_mem _ he)
      rw [if_neg hne]
      exact ih hn.2 he

theorem mem_dedup_findEntry {l : List Pkg} {r : Pkg}
    (hr : r ∈ deduplicatePackages l) :
    findEntry (keyOf r) (l.foldl mergeStep []) = some r := by
  unfold deduplicatePackages at hr
  rcases List.mem_map.1 hr with ⟨e, he, rfl⟩
  have hkey : e.1 = keyOf e.2 := foldl_entry_key l [] (by intro x hx; simp at hx) e he
  have hfe := findEntry_of_mem_entries (foldl_keys_nodup l [] (by simp)) he
  rwa [hkey] at hfe

theorem findEntry_mem_dedup {l : List Pkg} {k : String} {r : Pkg}
    (h : findEntry k (l.foldl mergeStep []) = some r) :
    r ∈ deduplicatePackages l ∧ keyOf r = k := by
  unfold findEntry at h
  cases hf : List.find? (fun e : String × Pkg => e.1 == k) (l.foldl mergeStep []) with
  | none => rw [hf] at h; exact absurd h (by simp)
  | some e =>
    rw [hf] at h
    obtain rfl : e.2 = r := by simpa using h
    have hmem := List.mem_of_find?_eq_some hf
    have hpred := List.find?_some hf
    have hkey : e.1 = keyOf e.2 := foldl_entry_key l [] (by intro x hx; simp at hx) e hmem
    exact ⟨List.mem_map_of_mem _ hmem, by rw [← hkey]; exact eq_of_beq hpred⟩

def c8PkgA : Pkg :=
  { name := "pkgx", version := "2.0.0", label := "malicious",
    source := "osv", confidence := .high }

def c8PkgB : Pkg :=
  { name := "pkgx", version := "2.0.0", label := "malicious",
    source := "osv", confidence := .medium }

/-- C8, counterexample: two permutations of the same record multiset merge to
records with DIFFERENT content for the same key — the first-seen record's
scalar fields (here the confidence) win, so the merge is not
order-insensitive at the level of record content. -/
theorem dedup_order_sensitive_cex :
    ([c8PkgA, c8PkgB]).Perm [c8PkgB, c8PkgA]
    ∧ (deduplicatePackages [c8PkgA, c8PkgB]).map Pkg.confidence = [Confidence.high]
    ∧ (deduplicatePackages [c8PkgB, c8PkgA]).map Pkg.confidence = [Confidence.medium]
    ∧ (deduplicatePackages [c8PkgA, c8PkgB]).map keyOf
        = (deduplicatePackages [c8PkgB, c8PkgA]).map keyOf := by
  refine ⟨by decide, by decide, by decide, by decide⟩

/-- C8 (amended): for permuted (or regrouped) inputs the merge produces the
same set of `(name, version)` keys, and for each key the same SET of
accumulated sources; but the scalar record content (confidence, label,
primary source, ...) is taken from the first-seen record of each key and is
therefore order-sensitive (see the counterexample). -/
theorem dedup_perm_keys_and_sources :
    ∀ (l1 l2 : List Pkg), l1.Perm l2 → ∀ k : String,
      ((∃ r ∈ deduplicatePackages l1, keyOf r = k)
        ↔ (∃ r ∈ deduplicatePackages l2, keyOf r = k))
      ∧ (∀ r1 ∈ deduplicatePackages l1, ∀ r2 ∈ deduplicatePackages l2,
          keyOf r1 = k → keyOf r2 = k →
          ∀ s, (s ∈ r1.sources ↔ s ∈ r2.sources)) := by
  intro l1 l2 hperm k
  have hex : ∀ l : List Pkg,
      ((∃ r ∈ deduplicatePackages l, keyOf r = k) ↔ ∃ p ∈ l, keyOf p = k) := by
    intro l
    constructor
    · rintro ⟨r, hr, rfl⟩
      exact (mapTracks_dedup l).2.1 _ r (mem_dedup_findEntry hr)
    · rintro ⟨p, hp, hkp⟩
      cases hf : findEntry k (l.foldl mergeStep []) with
      | none => exact absurd hkp ((mapTracks_dedup l).1 k hf p hp)
      | some r =>
        obtain ⟨hmem, hkey⟩ := findEntry_mem_dedup hf
        exact ⟨r, hmem, hkey⟩
  constructor
  · rw [hex l1, hex l2]
    constructor
    · rintro ⟨p, hp, hk⟩; exact ⟨p, hperm.mem_iff.1 hp, hk⟩
    · rintro ⟨p, hp, hk⟩; exact ⟨p, hperm.mem_iff.2 hp, hk⟩
  · intro r1 hr1 r2 hr2 hk1 hk2 s
    have h1 := (mapTracks_dedup l1).2.2 _ r1 (mem_dedup_findEntry hr1)
    have h2 := (mapTracks_dedup l2).2.2 _ r2 (mem_dedup_findEntry hr2)
    rw [hk1] at h1
    rw [hk2] at h2
    rw [h1 s, h2 s]
    exact ((hperm.filter _).map _).mem_iff

/-- Witness for C8 (amended) on a concrete permuted pair. -/
theorem dedup_perm_keys_and_sources_witness :
    (([c8PkgA, c8PkgB]).Perm [c8PkgB, c8PkgA])
    ∧ (((∃ r ∈ deduplicatePackages [c8PkgA, c8PkgB], keyOf r = "pkgx@2.0.0")
        ↔ (∃ r ∈ deduplicatePackages [c8PkgB, c8PkgA], keyOf r = "pkgx@2.0.0"))
      ∧ (∀ r1 ∈ deduplicatePackages [c8PkgA, c8PkgB],
          ∀ r2 ∈ deduplicatePackages [c8PkgB, c8PkgA],
          keyOf r1 = "pkgx@2.0.0" → keyOf r2 = "pkgx@2.0.0" →
          ∀ s, (s ∈ r1.sources ↔ s ∈ r2.sources))) :=
  ⟨by decide,
   dedup_perm_keys_and_sources [c8PkgA, c8PkgB] [c8PkgB, c8PkgA] (by decide) "pkgx@2.0.0"⟩

/-! ### Single-package collector (C1):
`DataCollectionOrchestrator.collectPackageData` -/

/-- The slice of the npm-registry metadata consumed by the orchestrator:
the resolved version, the (truthy-or-absent) `repository` field, and the
tarball URL found at `metadata.versions[metadata.version].dist.tarball`. -/
structure Metadata where
  name : String
  version : String
  repository : Option String
  tarball : Option String
deriving DecidableEq, Repr

/-- What `collectionResults.data[aspect]` holds after one optional step:
either the fetched payload or the `{ error: error.message }` descriptor
written by the step's `catch`. -/
inductive AspectData (π : Type) where
  | payload : π → AspectData π
  | errorDesc : String → AspectData π
deriving DecidableEq, Repr

/-- The `catch` of one optional step: a successful fetch is stored as the
payload, a raised error as its error descriptor. -/
def toAspectData : Except String π → AspectData π
  | .ok p => .payload p
  | .error e => .errorDesc e

/-- The destructured `options` of `collectPackageData`, with the source's
defaults. -/
structure CollectOptions where
  includeStaticAnalysis : Bool := false
  includeGitHubData : Bool := true
  includeVulnerabilities : Bool := true
  includeDependencies : Bool := true
deriving DecidableEq, Repr

/-- The `collectionResults.data` map being filled in. -/
structure CollectionData (α β γ δ : Type) where
  metadata : Option Metadata
  dependencies : Option (AspectData α)
  vulnerabilities : Option (AspectData β)
  github : Option (AspectData γ)
  staticAnalysis : Option (AspectData δ)
deriving DecidableEq, Repr

/-- The `collectionResults` object returned on success. -/
structure CollectionResult (α β γ δ : Type) where
  packageName : String
  version : String
  data : CollectionData α β γ δ
deriving DecidableEq, Repr

/-- The external source fetchers the orchestrator calls, one per aspect.
`vulnsFetch` also receives the `'all'` source filter, `staticFetch` the
tarball URL, exactly as at the call sites in the source. -/
structure Fetchers (α β γ δ : Type) where
  metadataFetch : String → String → Except String Metadata
  depsFetch : String → String → Except String α
  vulnsFetch : String → String → String → Except String β
  githubFetch : Metadata → Except String γ
  staticFetch : String → String → String → Except String δ

/-- `DataCollectionOrchestrator.collectPackageData`: the mandatory metadata
fetch (whose failure propagates out of the surrounding `try` and is
re-thrown), followed by the four optional steps in source order, each gated
by its option (plus the truthiness guards on `metadata.repository` and on
the tarball URL) and each storing either its payload or its own error
descriptor. -/
def collectPackageData (F : Fetchers α β γ δ) (packageName version : String)
    (opts : CollectOptions) : Except String (CollectionResult α β γ δ) :=
  match F.metadataFetch packageName version with
  | .error e => .error e
  | .ok metadata =>
    let d0 : CollectionData α β γ δ :=
      { metadata := some metadata, dependencies := none, vulnerabilities := none,
        github := none, staticAnalysis := none }
    let d1 := if opts.includeDependencies then
        { d0 with dependencies := some (toAspectData (F.depsFetch packageName metadata.version)) }
      else d0
    let d2 := if opts.includeVulnerabilities then
        { d1 with vulnerabilities := some (toAspectData (F.vulnsFetch packageName metadata.version "all")) }
      else d1
    let d3 := if opts.includeGitHubData && metadata.repository.isSome then
        { d2 with github := some (toAspectData (F.githubFetch metadata)) }
      else d2
    let d4 := match opts.includeStaticAnalysis, metadata.tarball with
      | true, some tb =>
        { d3 with staticAnalysis := some (toAspectData (F.staticFetch packageName metadata.version tb)) }
      | _, _ => d3
    .ok { packageName := packageName, version := version, data := d4 }

/-- C1: when the mandatory metadata fetch fails, `collectPackageData`
re-raises that error and returns no result; when it succeeds, the call
returns a result whose data map holds, under each enabled aspect's key,
the outcome of that aspect's own fetch — its failure is caught and stored
as an error descriptor under its key while every sibling aspect is still
attempted and recorded from its own fetch. -/
theorem collect_failure_isolation (F : Fetchers α β γ δ)
    (n v : String) (opts : CollectOptions) :
    (∀ e, F.metadataFetch n v = .error e →
      collectPackageData F n v opts = .error e)
    ∧ (∀ m, F.metadataFetch n v = .ok m →
      collectPackageData F n v opts = .ok
        { packageName := n, version := v,
          data :=
            { metadata := some m
              dependencies :=
                if opts.includeDependencies then
                  some (toAspectData (F.depsFetch n m.version)) else none
              vulnerabilities :=
                if opts.includeVulnerabilities then
                  some (toAspectData (F.vulnsFetch n m.version "all")) else none
              github :=
                if opts.includeGitHubData && m.repository.isSome then
                  some (toAspectData (F.githubFetch m)) else none
              staticAnalysis :=
                match opts.includeStaticAnalysis, m.tarball with
                | true, some tb =>
                  some (toAspectData (F.staticFetch n m.version tb))
                | _, _ => none } }) := by
  constructor
  · intro e he
    unfold collectPackageData
    rw [he]
  · intro m hm
    unfold collectPackageData
    rw [hm]
    rcases opts with ⟨sa, gh, vu, de⟩
    rcases m with ⟨mn, mv, mrep, mtar⟩
    cases sa <;> cases gh <;> cases vu <;> cases de <;>
      cases mrep <;> cases mtar <;> rfl

def c1Meta : Metadata :=
  { name := "left-pad", version := "1.3.0", repository := none, tarball := none }

def c1Fetchers : Fetchers Nat Nat Nat Nat :=
  { metadataFetch := fun _ _ => .ok c1Meta
    depsFetch := fun _ _ => .error "MalformedResponseError"
    vulnsFetch := fun _ _ _ => .ok 1
    githubFetch := fun _ => .ok 2
    staticFetch := fun _ _ _ => .ok 3 }

def c1Opts : CollectOptions :=
  { includeStaticAnalysis := false, includeGitHubData := false,
    includeVulnerabilities := true, includeDependencies := true }

/-- Witness for C1 at the spec's scenario: metadata resolves `"1.3.0"`, the
dependency fetcher raises, vulnerabilities succeed, github and static
analysis are disabled. -/
theorem collect_failure_isolation_witness :
    collectPackageData c1Fetchers "left-pad" "1.3.0" c1Opts = .ok
      { packageName := "left-pad", version := "1.3.0",
        data :=
          { metadata := some c1Meta
            dependencies := some (.errorDesc "MalformedResponseError")
            vulnerabilities := some (.payload 1)
            github := none
            staticAnalysis := none } } := by
  have h := (collect_failure_isolation c1Fetchers "left-pad" "1.3.0" c1Opts).2 c1Meta rfl
  exact h

/-! ### Batch orchestrator (C2, C6):
`DataCollectionOrchestrator.batchCollectPackages` -/

/-- A `{name, version}` element of the caller's `packageList`. -/
structure PkgIdent where
  name : String
  version : String
deriving DecidableEq, Repr

structure BatchSummary where
  total : Nat
  successful : Nat
  failed : Nat
deriving DecidableEq, Repr

/-- The `{ results, errors, summary }` object returned by the batch
orchestrator. -/
structure BatchResult (ρ : Type) where
  results : List ρ
  errors : List (PkgIdent × String)
  summary : BatchSummary
deriving DecidableEq, Repr

/-- The grouping performed by `for (let i = 0; i < n; i += concurrency)`
with `packageList.slice(i, i + concurrency)`.  The fuel equals the list
length; it suffices whenever `1 ≤ k` (for `k = 0` the source loop never
advances, so the model is only used under positive concurrency). -/
def chunksAux (k : Nat) : Nat → List α → List (List α)
  | _, [] => []
  | 0, _ :: _ => []
  | fuel + 1, a :: l => ((a :: l).take k) :: chunksAux k fuel ((a :: l).drop k)

def chunks (l : List α) (k : Nat) : List (List α) := chunksAux k l.length l

/-- The settlement of one item inside `Promise.allSettled` plus the
`forEach` that pushes a fulfilled value onto `results` and a rejection onto
`errors` (keyed by the input identity). -/
def settleStep (collectOne : PkgIdent → Except String ρ)
    (a : List ρ × List (PkgIdent × String)) (p : PkgIdent) :
    List ρ × List (PkgIdent × String) :=
  match collectOne p with
  | .ok r => (a.1 ++ [r], a.2)
  | .error e => (a.1, a.2 ++ [(p, e)])

/-- One group: settle every item of the batch, in order. -/
def settleGroup (collectOne : PkgIdent → Except String ρ)
    (batch : List PkgIdent) (acc : List ρ × List (PkgIdent × String)) :
    List ρ × List (PkgIdent × String) :=
  batch.foldl (settleStep collectOne) acc

/-- `DataCollectionOrchestrator.batchCollectPackages`: group the list by the
concurrency bound, settle every group, and return results, errors and the
summary counts. -/
def batchCollectPackages (collectOne : PkgIdent → Except String ρ)
    (packageList : List PkgIdent) (concurrency : Nat) : BatchResult ρ :=
  let groups := chunks packageList concurrency
  let re := groups.foldl (fun acc batch => settleGroup collectOne batch acc) ([], [])
  { results := re.1, errors := re.2,
    summary := { total := packageList.length, successful := re.1.length,
                 failed := re.2.length } }

theorem chunksAux_flatten {k : Nat} (hk : 1 ≤ k) :
    ∀ (fuel : Nat) (l : List α), l.length ≤ fuel →
      (chunksAux k fuel l).flatten = l := by
  intro fuel
  induction fuel with
  | zero =>
    intro l hl
    cases l with
    | nil => rfl
    | cons a t => simp at hl
  | succ fuel ih =>
    intro l hl
    cases l with
    | nil => rfl
    | cons a t =>
      show ((a :: t).take k :: chunksAux k fuel ((a :: t).drop k)).flatten = a :: t
      rw [List.flatten_cons, ih ((a :: t).drop k)
        (by rw [List.length_drop]; simp only [List.length_cons] at hl ⊢; omega)]
      exact List.take_append_drop k (a :: t)

theorem chunks_flatten {k : Nat} (hk : 1 ≤ k) (l : List α) :
    (chunks l k).flatten = l :=
  chunksAux_flatten hk l.length l (le_refl _)

/-- The fulfilled outcome of one item, if any. -/
def okOutcome (collectOne : PkgIdent → Except String ρ) (p : PkgIdent) :
    Option ρ :=
  match collectOne p with
  | .ok r => some r
  | .error _ => none

/-- The rejected outcome of one item, if any, keyed by its identity. -/
def errOutcome (collectOne : PkgIdent → Except String ρ) (p : PkgIdent) :
    Option (PkgIdent × String) :=
  match collectOne p with
  | .error e => some (p, e)
  | .ok _ => none

theorem settle_foldl (collectOne : PkgIdent → Except String ρ) :
    ∀ (l : List PkgIdent) (acc : List ρ × List (PkgIdent × String)),
      l.foldl (settleStep collectOne) acc
        = (acc.1 ++ l.filterMap (okOutcome collectOne),
           acc.2 ++ l.filterMap (errOutcome collectOne)) := by
  intro l
  induction l with
  | nil => intro acc; simp
  | cons p t ih =>
    intro acc
    rw [List.foldl_cons, ih]
    cases hc : collectOne p with
    | ok r =>
      rw [show settleStep collectOne acc p = (acc.1 ++ [r], acc.2) by
        unfold settleStep; rw [hc]]
      simp [okOutcome, errOutcome, hc, List.filterMap_cons]
    | error e =>
      rw [show settleStep collectOne acc p = (acc.1, acc.2 ++ [(p, e)]) by
        unfold settleStep; rw [hc]]
      simp [okOutcome, errOutcome, hc, List.filterMap_cons]

theorem batch_results_errors (collectOne : PkgIdent → Except String ρ)
    (items : List PkgIdent) (c : Nat) (hc : 1 ≤ c) :
    (batchCollectPackages collectOne items c).results
        = items.filterMap (okOutcome collectOne)
    ∧ (batchCollectPackages collectOne items c).errors
        = items.filterMap (errOutcome collectOne) := by
  have h1 : (chunks items c).foldl
        (fun acc batch => settleGroup collectOne batch acc) ([], [])
      = ((chunks items c).flatten).foldl (settleStep collectOne) ([], []) := by
    rw [List.foldl_flatten]
    rfl
  have key : (chunks items c).foldl
        (fun acc batch => settleGroup collectOne batch acc) ([], [])
      = (items.filterMap (okOutcome collectOne),
         items.filterMap (errOutcome collectOne)) := by
    rw [h1, chunks_flatten hc items, settle_foldl]
    simp
  constructor
  · show ((chunks items c).foldl
        (fun acc batch => settleGroup collectOne batch acc) ([], [])).1 = _
    rw [key]
  · show ((chunks items c).foldl
        (fun acc batch => settleGroup collectOne batch acc) ([], [])).2 = _
    rw [key]

theorem filterMap_ok_err_length (collectOne : PkgIdent → Except String ρ)
    (l : List PkgIdent) :
    (l.filterMap (okOutcome collectOne)).length
      + (l.filterMap (errOutcome collectOne)).length = l.length := by
  induction l with
  | nil => rfl
  | cons p t ih =>
    cases hc : collectOne p <;>
      simp [List.filterMap_cons, okOutcome, errOutcome, hc] <;> omega

/-- C2: under the all-settle-and-continue discipline the batch call returns
(never raises), every input item settles to exactly one outcome derived
from its own collection alone, the `results` and `errors` sequences are the
order-preserving projections of the input sequence onto fulfilled and
rejected items respectively, and the summary counts cover all items
exactly once. -/
theorem batch_settles_all (collectOne : PkgIdent → Except String ρ)
    (items : List PkgIdent) (c : Nat) (hc : 1 ≤ c) (_hne : items ≠ []) :
    (batchCollectPackages collectOne items c).results
        = items.filterMap (okOutcome collectOne)
    ∧ (batchCollectPackages collectOne items c).errors
        = items.filterMap (errOutcome collectOne)
    ∧ (batchCollectPackages collectOne items c).summary.total = items.length
    ∧ (batchCollectPackages collectOne items c).summary.successful
        + (batchCollectPackages collectOne items c).summary.failed
        = items.length := by
  obtain ⟨h1, h2⟩ := batch_results_errors collectOne items c hc
  refine ⟨h1, h2, rfl, ?_⟩
  show (batchCollectPackages collectOne items c).results.length
      + (batchCollectPackages collectOne items c).errors.length = items.length
  rw [h1, h2]
  exact filterMap_ok_err_length collectOne items

def c2Items : List PkgIdent :=
  [⟨"p1", "1.0.0"⟩, ⟨"p2", "1.0.0"⟩, ⟨"p3", "1.0.0"⟩,
   ⟨"p4", "1.0.0"⟩, ⟨"p5", "1.0.0"⟩]

def c2Collect : PkgIdent → Except String Nat := fun p =>
  if p.name = "p3" then .error "FatalMetadataError" else .ok 0

/-- Witness for C2 on the spec's isolation scenario: 5 items, the third
raising a fatal metadata error, concurrency 2. -/
theorem batch_settles_all_witness :
    ((1 ≤ 2) ∧ c2Items ≠ [])
    ∧ ((batchCollectPackages c2Collect c2Items 2).results
          = c2Items.filterMap (okOutcome c2Collect)
      ∧ (batchCollectPackages c2Collect c2Items 2).errors
          = c2Items.filterMap (errOutcome c2Collect)
      ∧ (batchCollectPackages c2Collect c2Items 2).summary.total = c2Items.length
      ∧ (batchCollectPackages c2Collect c2Items 2).summary.successful
          + (batchCollectPackages c2Collect c2Items 2).summary.failed
          = c2Items.length) :=
  ⟨⟨by decide, by decide⟩, batch_settles_all c2Collect c2Items 2 (by decide) (by decide)⟩

/-- C6: the grouping induced by the concurrency bound is a pacing mechanism
only — for any two positive concurrency values the batch call produces
identical `results`, `errors` and summary, given the same per-item
outcomes. -/
theorem batch_concurrency_invariant (collectOne : PkgIdent → Except String ρ)
    (items : List PkgIdent) (ca cb : Nat) (ha : 1 ≤ ca) (hb : 1 ≤ cb) :
    (batchCollectPackages collectOne items ca).results
        = (batchCollectPackages collectOne items cb).results
    ∧ (batchCollectPackages collectOne items ca).errors
        = (batchCollectPackages collectOne items cb).errors
    ∧ (batchCollectPackages collectOne items ca).summary
        = (batchCollectPackages collectOne items cb).summary := by
  obtain ⟨ra, ea⟩ := batch_results_errors collectOne items ca ha
  obtain ⟨rb, eb⟩ := batch_results_errors collectOne items cb hb
  have hsa : (batchCollectPackages collectOne items ca).summary
      = { total := items.length,
          successful := (batchCollectPackages collectOne items ca).results.length,
          failed := (batchCollectPackages collectOne items ca).errors.length } := rfl
  have hsb : (batchCollectPackages collectOne items cb).summary
      = { total := items.length,
          successful := (batchCollectPackages collectOne items cb).results.length,
          failed := (batchCollectPackages collectOne items cb).errors.length } := rfl
  refine ⟨by rw [ra, rb], by rw [ea, eb], ?_⟩
  rw [hsa, hsb, ra, rb, ea, eb]

def c6Items : List PkgIdent := [⟨"a", "1.0.0"⟩, ⟨"b", "2.0.0"⟩]

def c6Collect : PkgIdent → Except String Nat := fun p =>
  if p.name = "b" then .error "FatalMetadataError" else .ok 7

/-- Witness for C6 on the spec's scenario: `[a, b]` with concurrency 1
versus concurrency 2. -/
theorem batch_concurrency_invariant_witness :
    ((1 ≤ 1) ∧ (1 ≤ 2))
    ∧ ((batchCollectPackages c6Collect c6Items 1).results
          = (batchCollectPackages c6Collect c6Items 2).results
      ∧ (batchCollectPackages c6Collect c6Items 1).errors
          = (batchCollectPackages c6Collect c6Items 2).errors
      ∧ (batchCollectPackages c6Collect c6Items 1).summary
          = (batchCollectPackages c6Collect c6Items 2).summary) :=
  ⟨⟨by decide, by decide⟩,
   batch_concurrency_invariant c6Collect c6Items 1 2 (by decide) (by decide)⟩

/-! ### Retrying call executor (C4): `apiCallWithRetry` of
`utils/rateLimiter.js` -/

/-- The error shape inspected by the retry loop: the HTTP status
(`error.response?.status || error.status`) and the parsed
`Retry-After` header in seconds, when present. -/
structure ErrInfo where
  status : Option Nat
  retryAfter : Option Nat
deriving DecidableEq, Repr

deriving instance DecidableEq for Except

/-- The default `shouldRetry` predicate: retry on 429 or any 5xx status. -/
def shouldRetryDefault (e : ErrInfo) : Bool :=
  match e.status with
  | some s => s == 429 || (500 ≤ s && s < 600)
  | none => false

/-- Outcome classifier used to state hypotheses decidably: the attempt
failed with a retryable error carrying no retry-after hint. -/
def retryableNoHint (r : Except ErrInfo π) : Bool :=
  match r with
  | .error e => shouldRetryDefault e && e.retryAfter.isNone
  | .ok _ => false

/-- The `for (attempt = 1; attempt <= maxRetries; ...)` loop of
`apiCallWithRetry`: `call attempt` is the outcome of the attempt-th
invocation of the callable; the returned list records the `sleep` durations
(ms) in order — `min(baseDelay * 2^(attempt-1), maxDelay)`, overridden by
`retryAfter * 1000` when the error carries the hint.  The fuel starts at
`maxRetries`, matching the loop bound; `lastErr` models the `lastError`
variable thrown if the loop body never runs. -/
def retryGo (call : Nat → Except ErrInfo π) (maxRetries baseDelay maxDelay : Nat)
    (lastErr : ErrInfo) : Nat → Nat → Except ErrInfo π × List Nat
  | _, 0 => (.error lastErr, [])
  | attempt, fuel + 1 =>
    match call attempt with
    | .ok v => (.ok v, [])
    | .error e =>
      if !shouldRetryDefault e || maxRetries ≤ attempt then (.error e, [])
      else
        let delay := min (baseDelay * 2 ^ (attempt - 1)) maxDelay
        let finalDelay := match e.retryAfter with
          | some secs => secs * 1000
          | none => delay
        let rest := retryGo call maxRetries baseDelay maxDelay e (attempt + 1) fuel
        (rest.1, finalDelay :: rest.2)

/-- `apiCallWithRetry` with the source's defaults for `shouldRetry`
(and explicit numeric parameters): returns the final outcome together with
the sequence of inter-attempt delays. -/
def apiCallWithRetry (call : Nat → Except ErrInfo π)
    (maxRetries baseDelay maxDelay : Nat) : Except ErrInfo π × List Nat :=
  retryGo call maxRetries baseDelay maxDelay ⟨none, none⟩ 1 maxRetries

theorem retryGo_spec (call : Nat → Except ErrInfo π)
    (maxRetries baseDelay maxDelay k : Nat) (v : π)
    (hk : k < maxRetries)
    (hfail : ∀ i, i ≤ k → 1 ≤ i → retryableNoHint (call i) = true)
    (hsucc : call (k + 1) = .ok v) :
    ∀ (d a : Nat) (lastErr : ErrInfo), 1 ≤ a → a + d = k + 1 →
      retryGo call maxRetries baseDelay maxDelay lastErr a (maxRetries + 1 - a)
        = (.ok v, (List.range d).map
            (fun i => min (baseDelay * 2 ^ (a - 1 + i)) maxDelay)) := by
  intro d
  induction d with
  | zero =>
    intro a lastErr ha hak
    obtain rfl : a = k + 1 := by omega
    obtain ⟨f, hf⟩ : ∃ f, maxRetries + 1 - (k + 1) = f + 1 :=
      ⟨maxRetries - (k + 1), by omega⟩
    rw [hf]
    simp only [retryGo]
    simp only [hsucc]
    simp
  | succ d ih =>
    intro a lastErr ha hak
    have hak' : a ≤ k := by omega
    have hinfo := hfail a hak' ha
    obtain ⟨f, hf⟩ : ∃ f, maxRetries + 1 - a = f + 1 :=
      ⟨maxRetries - a, by omega⟩
    rw [hf]
    cases hc : call a with
    | ok w =>
      rw [hc] at hinfo
      simp [retryableNoHint] at hinfo
    | error e =>
      rw [hc] at hinfo
      have hretry : shouldRetryDefault e = true := by
        simp [retryableNoHint] at hinfo
        exact hinfo.1
      have hhint : e.retryAfter = none := by
        simp [retryableNoHint, Option.isNone_iff_eq_none] at hinfo
        exact hinfo.2
      simp only [retryGo]
      simp only [hc, hretry, hhint, Bool.not_true, Bool.false_or]
      rw [if_neg (by simp only [decide_eq_true_eq]; omega)]
      have hfeq : f = maxRetries + 1 - (a + 1) := by omega
      rw [hfeq, ih (a + 1) e (by omega) (by omega)]
      dsimp only
      simp only [Prod.mk.injEq]
      refine ⟨by trivial, ?_⟩
      rw [List.range_succ_eq_map]
      simp only [List.map_cons, List.map_map]
      congr 1
      refine List.map_congr_left fun i _ => ?_
      simp only [Function.comp]
      have hexp : a + 1 - 1 + i = a - 1 + i.succ := by omega
      rw [hexp]

/-- C4, counterexample: a retryable 429 failure carrying a
`Retry-After: 61` hint makes the single retry sleep 61000 ms, which exceeds
`maxDelay = 30000` — refuting the claim that every inter-attempt delay is
at most `maxDelay`. -/
def c4HintCall : Nat → Except ErrInfo Nat := fun i =>
  if i = 1 then .error { status := some 429, retryAfter := some 61 } else .ok 7

theorem retry_hint_exceeds_maxDelay_cex :
    (apiCallWithRetry c4HintCall 3 1000 30000).1 = .ok 7
    ∧ (apiCallWithRetry c4HintCall 3 1000 30000).2 = [61000]
    ∧ ¬(61000 ≤ 30000) := by
  refine ⟨by decide, by decide, by decide⟩

/-- C4 (amended): if the callable fails with retryable errors carrying NO
retry-after hint exactly `k` times (`k < maxRetries`) and then succeeds,
`apiCallWithRetry` returns the success value after exactly `k` retries whose
delays are non-decreasing and each at most `maxDelay`.  When a failure does
carry a retry-after hint, that hint (seconds × 1000) replaces the computed
delay and may exceed `maxDelay` (see the counterexample). -/
theorem retry_success_after_k (call : Nat → Except ErrInfo π)
    (maxRetries baseDelay maxDelay k : Nat) (v : π)
    (hk : k < maxRetries)
    (hfail : ∀ i, i ≤ k → 1 ≤ i → retryableNoHint (call i) = true)
    (hsucc : call (k + 1) = .ok v) :
    (apiCallWithRetry call maxRetries baseDelay maxDelay).1 = .ok v
    ∧ (apiCallWithRetry call maxRetries baseDelay maxDelay).2
        = (List.range k).map (fun i => min (baseDelay * 2 ^ i) maxDelay)
    ∧ (apiCallWithRetry call maxRetries baseDelay maxDelay).2.length = k
    ∧ (∀ d ∈ (apiCallWithRetry call maxRetries baseDelay maxDelay).2, d ≤ maxDelay)
    ∧ (apiCallWithRetry call maxRetries baseDelay maxDelay).2.Pairwise (· ≤ ·) := by
  have hrun : apiCallWithRetry call maxRetries baseDelay maxDelay
      = (.ok v, (List.range k).map (fun i => min (baseDelay * 2 ^ i) maxDelay)) := by
    have h := retryGo_spec call maxRetries baseDelay maxDelay k v hk hfail hsucc
      k 1 ⟨none, none⟩ (le_refl 1) (by omega)
    simp only [Nat.add_sub_cancel] at h
    unfold apiCallWithRetry
    rw [h]
    simp
  rw [hrun]
  refine ⟨rfl, rfl, by simp, ?_, ?_⟩
  · intro d hd
    rcases List.mem_map.1 hd with ⟨i, _, rfl⟩
    exact min_le_right _ _
  · refine List.Pairwise.map _ ?_ (List.pairwise_lt_range k)
    intro i j hij
    exact min_le_min (Nat.mul_le_mul_left _ (Nat.pow_le_pow_right (by omega) (by omega))) (le_refl _)

def c4Call : Nat → Except ErrInfo Nat := fun i =>
  if i ≤ 2 then .error { status := some 500, retryAfter := none } else .ok 42

/-- Witness for C4 (amended): two 500-failures without hints, then success,
with `maxRetries = 4`, `baseDelay = 1000`, `maxDelay = 30000`. -/
theorem retry_success_after_k_witness :
    ((2 < 4) ∧ (∀ i, i ≤ 2 → 1 ≤ i → retryableNoHint (c4Call i) = true)
      ∧ c4Call (2 + 1) = .ok 42)
    ∧ ((apiCallWithRetry c4Call 4 1000 30000).1 = .ok 42
      ∧ (apiCallWithRetry c4Call 4 1000 30000).2
          = (List.range 2).map (fun i => min (1000 * 2 ^ i) 30000)
      ∧ (apiCallWithRetry c4Call 4 1000 30000).2.length = 2
      ∧ (∀ d ∈ (apiCallWithRetry c4Call 4 1000 30000).2, d ≤ 30000)
      ∧ (apiCallWithRetry c4Call 4 1000 30000).2.Pairwise (· ≤ ·)) :=
  ⟨⟨by decide, by decide, by decide⟩,
   retry_success_after_k c4Call 4 1000 30000 2 42 (by decide) (by decide) (by decide)⟩

/-! ### Rate limiter (C5): class `RateLimiter` of `utils/rateLimiter.js` -/

/-- The mutable state of one `RateLimiter` instance: the
`(requestsPerWindow, windowMs)` configuration and the recorded request
timestamps. -/
structure RateLimiterState where
  requestsPerWindow : Nat
  windowMs : Nat
  requests : List Nat
deriving DecidableEq, Repr

/-- The pruning performed inside `canMakeRequest`: keep the timestamps with
`now - timestamp < windowMs`. -/
def pruneRequests (now : Nat) (rl : RateLimiterState) : RateLimiterState :=
  { rl with requests := rl.requests.filter (fun t => now - t < rl.windowMs) }

/-- `canMakeRequest`: prune, then compare the in-window count with the
capacity; returns the answer together with the mutated state. -/
def canMakeRequest (now : Nat) (rl : RateLimiterState) :
    Bool × RateLimiterState :=
  let rl' := pruneRequests now rl
  (decide (rl'.requests.length < rl.requestsPerWindow), rl')

/-- `Math.min(...requests)` on a non-empty array (0 for the empty array,
which the blocked path never reaches when the capacity is positive). -/
def listMin : List Nat → Nat
  | [] => 0
  | a :: t => t.foldl min a

/-- `getTimeUntilNextRequest`: 0 when a slot is free, otherwise the time
until the oldest recorded timestamp exits the window —
`Math.max(0, oldest + windowMs - now)`, here by natural subtraction. -/
def getTimeUntilNextRequest (now : Nat) (rl : RateLimiterState) :
    Nat × RateLimiterState :=
  let c := canMakeRequest now rl
  if c.1 then (0, c.2)
  else (listMin c.2.requests + rl.windowMs - now, c.2)

/-- The `while` loop of `waitUntilCanRequest`: suspend for the computed wait
and re-check.  The fuel bounds the iterations of the model; in a sequential
run one sleep always frees a slot, so `requests.length + 1` iterations
suffice. -/
def waitLoop : Nat → RateLimiterState → Nat → Nat × RateLimiterState
  | 0, rl, now => (now, rl)
  | fuel + 1, rl, now =>
    let c := canMakeRequest now rl
    if c.1 then (now, c.2)
    else
      let w := getTimeUntilNextRequest now c.2
      waitLoop fuel w.2 (now + w.1)

/-- `makeRequest` issued at clock reading `now`: wait until a slot is free,
record the wake-up instant (`recordRequest` pushes the current
`Date.now()`), and report the duration slept. -/
def makeRequest (rl : RateLimiterState) (now : Nat) :
    Nat × RateLimiterState :=
  let r := waitLoop (rl.requests.length + 1) rl now
  (r.1 - now, { r.2 with requests := r.2.requests ++ [r.1] })

/-- A sequence of admissions at the given clock readings; returns the list
of waited durations and the final state. -/
def admitAll (rl : RateLimiterState) : List Nat → List Nat × RateLimiterState
  | [] => ([], rl)
  | t :: ts =>
    let r := makeRequest rl t
    let rest := admitAll r.2 ts
    (r.1 :: rest.1, rest.2)

theorem canMake_true_of_lt {rl : RateLimiterState} {now : Nat}
    (h : rl.requests.length < rl.requestsPerWindow) :
    (canMakeRequest now rl).1 = true := by
  unfold canMakeRequest pruneRequests
  simp only [decide_eq_true_eq]
  exact lt_of_le_of_lt (List.length_filter_le _ _) h

theorem makeRequest_free (rl : RateLimiterState) (now : Nat)
    (h : rl.requests.length < rl.requestsPerWindow) :
    makeRequest rl now
      = (0, { rl with
              requests := rl.requests.filter (fun t => now - t < rl.windowMs)
                            ++ [now] }) := by
  have hc : (canMakeRequest now rl).1 = true := canMake_true_of_lt h
  unfold makeRequest
  simp only [waitLoop, hc, if_true]
  simp [canMakeRequest, pruneRequests, Nat.sub_self]

theorem admitAll_no_wait :
    ∀ (ts : List Nat) (rl : RateLimiterState),
      rl.requests.length + ts.length ≤ rl.requestsPerWindow →
      (admitAll rl ts).1 = List.replicate ts.length 0 := by
  intro ts
  induction ts with
  | nil => intro rl _; rfl
  | cons t ts ih =>
    intro rl h
    simp only [List.length_cons] at h
    have hlt : rl.requests.length < rl.requestsPerWindow := by omega
    simp only [admitAll]
    rw [makeRequest_free rl t hlt]
    simp only [List.length_cons, List.replicate_succ, List.cons.injEq]
    refine ⟨by trivial, ?_⟩
    refine ih _ ?_
    have hfle := List.length_filter_le (fun t' => decide (t - t' < rl.windowMs)) rl.requests
    simp only [List.length_append, List.length_cons, List.length_nil]
    omega

theorem admitAll_records :
    ∀ (ts : List Nat) (rl : RateLimiterState),
      rl.requests.length + ts.length ≤ rl.requestsPerWindow →
      (∀ a ∈ rl.requests ++ ts, ∀ b ∈ ts, b - a < rl.windowMs) →
      admitAll rl ts
        = (List.replicate ts.length 0, { rl with requests := rl.requests ++ ts }) := by
  intro ts
  induction ts with
  | nil => intro rl _ _; simp [admitAll]
  | cons t ts ih =>
    intro rl h hw
    simp only [List.length_cons] at h
    have hlt : rl.requests.length < rl.requestsPerWindow := by omega
    have hfilter : rl.requests.filter (fun t' => t - t' < rl.windowMs) = rl.requests := by
      refine List.filter_eq_self.2 fun a ha => ?_
      simp only [decide_eq_true_eq]
      exact hw a (List.mem_append_left _ ha) t (List.mem_cons_self _ _)
    simp only [admitAll]
    rw [makeRequest_free rl t hlt, hfilter]
    rw [ih { rl with requests := rl.requests ++ [t] }
      (by simp only [List.length_append, List.length_cons, List.length_nil]; omega)
      (by
        intro a ha b hb
        refine hw a ?_ b (List.mem_cons_of_mem _ hb)
        simp only [List.append_assoc, List.singleton_append] at ha
        exact ha)]
    simp [List.append_assoc, List.replicate_succ]

theorem foldl_min_of_le (t : List Nat) (a : Nat) (h : ∀ x ∈ t, a ≤ x) :
    t.foldl min a = a := by
  induction t generalizing a with
  | nil => rfl
  | cons b t ih =>
    simp only [List.foldl_cons]
    rw [min_eq_left (h b (List.mem_cons_self _ _))]
    exact ih a fun x hx => h x (List.mem_cons_of_mem _ hx)

theorem makeRequest_blocked (C W T : Nat) (ts : List Nat)
    (hC : 1 ≤ C) (hlen : ts.length = C)
    (hsort : ts.Sorted (· ≤ ·))
    (hle : ∀ t ∈ ts, t ≤ T) (hwin : ∀ t ∈ ts, T - t < W) :
    (makeRequest { requestsPerWindow := C, windowMs := W, requests := ts } T).1
      = ts.headD 0 + W - T := by
  cases ts with
  | nil => simp at hlen; omega
  | cons h0 tl =>
    simp only [List.length_cons] at hlen
    have hW : 1 ≤ W := by have := hwin h0 (List.mem_cons_self _ _); omega
    have hh0T : T ≤ h0 + W := by have := hwin h0 (List.mem_cons_self _ _); omega
    have hmin : listMin (h0 :: tl) = h0 := by
      show tl.foldl min h0 = h0
      exact foldl_min_of_le tl h0 (List.sorted_cons.1 hsort).1
    have hfilter1 : (h0 :: tl).filter (fun t => T - t < W) = h0 :: tl := by
      refine List.filter_eq_self.2 fun a ha => ?_
      simp only [decide_eq_true_eq]
      exact hwin a ha
    have hcan1 : canMakeRequest T { requestsPerWindow := C, windowMs := W, requests := h0 :: tl }
        = (false, { requestsPerWindow := C, windowMs := W, requests := h0 :: tl }) := by
      unfold canMakeRequest pruneRequests
      simp only [hfilter1]
      simp [hlen]
    have hwait : getTimeUntilNextRequest T
        { requestsPerWindow := C, windowMs := W, requests := h0 :: tl }
        = (h0 + W - T, { requestsPerWindow := C, windowMs := W, requests := h0 :: tl }) := by
      unfold getTimeUntilNextRequest
      simp only [hcan1]
      simp [hmin]
    have hfilter2 : (h0 :: tl).filter (fun t => h0 + W - t < W) = tl.filter (fun t => h0 + W - t < W) := by
      rw [List.filter_cons]
      simp [Nat.add_sub_cancel_left]
    have hcan2 : (canMakeRequest (h0 + W)
        { requestsPerWindow := C, windowMs := W, requests := h0 :: tl }).1 = true := by
      unfold canMakeRequest pruneRequests
      dsimp only
      rw [hfilter2]
      simp only [decide_eq_true_eq]
      have := List.length_filter_le (fun t => decide (h0 + W - t < W)) tl
      omega
    unfold makeRequest
    show (waitLoop ((h0 :: tl).length + 1) _ T).1 - T = _
    simp only [List.length_cons]
    simp only [waitLoop, hcan1, hwait]
    rw [show T + (h0 + W - T) = h0 + W by omega]
    simp only [waitLoop, hcan2, if_true]
    simp

theorem admitAll_append :
    ∀ (l1 l2 : List Nat) (rl : RateLimiterState),
      admitAll rl (l1 ++ l2)
        = ((admitAll rl l1).1 ++ (admitAll (admitAll rl l1).2 l2).1,
           (admitAll (admitAll rl l1).2 l2).2) := by
  intro l1
  induction l1 with
  | nil => intro l2 rl; rfl
  | cons t l1 ih =>
    intro l2 rl
    show ((makeRequest rl t).1 :: (admitAll (makeRequest rl t).2 (l1 ++ l2)).1,
          (admitAll (makeRequest rl t).2 (l1 ++ l2)).2) = _
    rw [ih]
    rfl

/-- C5, counterexample: with capacity 1 and a 1000 ms window, two admissions
in the same millisecond make the second suspend for exactly the window
duration — NOT strictly less than it, refuting the claim's strict bound. -/
theorem rateLimiter_boundary_wait_cex :
    (admitAll { requestsPerWindow := 1, windowMs := 1000, requests := [] } [5, 5]).1
      = [0, 1000]
    ∧ ¬(1000 < 1000) := by
  refine ⟨by decide, by decide⟩

/-- C5 (amended): from a fresh limiter with capacity `C ≥ 1` and window `W`,
any `N ≤ C` admissions complete with zero suspension; the `(C+1)`-th
admission issued at time `T` while all `C` recorded timestamps are still in
the window suspends for `oldest + W - T` — a duration that is at most `W`,
and strictly less than `W` exactly when the admission occurs strictly after
the oldest recorded timestamp (two admissions in the same millisecond wait
the full window; see the counterexample). -/
theorem rateLimiter_admission_bounds (C W T : Nat) (ts : List Nat)
    (hC : 1 ≤ C) (hlen : ts.length = C)
    (hsort : ts.Sorted (· ≤ ·))
    (hle : ∀ t ∈ ts, t ≤ T) (hwin : ∀ t ∈ ts, T - t < W) :
    (∀ ts' : List Nat, ts'.length ≤ C →
      (admitAll { requestsPerWindow := C, windowMs := W, requests := [] } ts').1
        = List.replicate ts'.length 0)
    ∧ (admitAll { requestsPerWindow := C, windowMs := W, requests := [] }
        (ts ++ [T])).1
        = List.replicate C 0 ++ [ts.headD 0 + W - T]
    ∧ ts.headD 0 + W - T ≤ W
    ∧ (ts.headD 0 < T → ts.headD 0 + W - T < W) := by
  have hne : ts ≠ [] := by intro h; rw [h] at hlen; simp at hlen; omega
  have hhead : ts.headD 0 ∈ ts := by
    cases ts with
    | nil => exact absurd rfl hne
    | cons a t => exact List.mem_cons_self _ _
  have hrecords : admitAll { requestsPerWindow := C, windowMs := W, requests := [] } ts
      = (List.replicate ts.length 0,
         { requestsPerWindow := C, windowMs := W, requests := [] ++ ts }) := by
    refine admitAll_records ts _ (by simp [hlen]) ?_
    intro a ha b hb
    simp only [List.nil_append] at ha
    have h1 := hwin a ha
    have h2 := hle b hb
    show b - a < W
    omega
  refine ⟨?_, ?_, ?_, ?_⟩
  · intro ts' hlen'
    exact admitAll_no_wait ts' _ (by simpa using hlen')
  · rw [admitAll_append, hrecords]
    simp only [List.nil_append, hlen]
    have hblocked := makeRequest_blocked C W T ts hC hlen hsort hle hwin
    simp only [admitAll]
    rw [List.append_cancel_left_eq]
    simp [hblocked]
  · have := hle _ hhead
    omega
  · intro hlt
    have := hwin _ hhead
    omega

def c5Times : List Nat := [0, 1]

/-- Witness for C5 (amended): capacity 2, window 1000 ms, admissions at
times 0 and 1, third admission at time 2. -/
theorem rateLimiter_admission_bounds_witness :
    ((1 ≤ 2) ∧ c5Times.length = 2 ∧ c5Times.Sorted (· ≤ ·)
      ∧ (∀ t ∈ c5Times, t ≤ 2) ∧ (∀ t ∈ c5Times, 2 - t < 1000))
    ∧ ((∀ ts' : List Nat, ts'.length ≤ 2 →
        (admitAll { requestsPerWindow := 2, windowMs := 1000, requests := [] } ts').1
          = List.replicate ts'.length 0)
      ∧ (admitAll { requestsPerWindow := 2, windowMs := 1000, requests := [] }
          (c5Times ++ [2])).1
          = List.replicate 2 0 ++ [c5Times.headD 0 + 1000 - 2]
      ∧ c5Times.headD 0 + 1000 - 2 ≤ 1000
      ∧ (c5Times.headD 0 < 2 → c5Times.headD 0 + 1000 - 2 < 1000)) :=
  ⟨⟨by decide, by decide, by decide, by decide, by decide⟩,
   rateLimiter_admission_bounds 2 1000 2 c5Times (by decide) (by decide)
     (by decide) (by decide) (by decide)⟩

/-! ### Labeled training-data collector (C9):
`DataCollectionOrchestrator.collectLabeledTrainingData` -/

structure LabeledPkg where
  name : String
  version : String
  label : String
deriving DecidableEq, Repr

/-- A labeled package together with the `fullData` field attached (or not)
by the enrichment loops. -/
structure EnrichedPkg (ρ : Type) where
  pkg : LabeledPkg
  fullData : Option ρ
deriving DecidableEq, Repr

/-- The summary block of the returned result: only the three counts — the
enrichment caps appear nowhere in it. -/
structure TrainingSummary where
  totalMalicious : Nat
  totalBenign : Nat
  totalWithFullData : Nat
deriving DecidableEq, Repr

structure TrainingData (ρ : Type) where
  malicious : List (EnrichedPkg ρ)
  benign : List (EnrichedPkg ρ)
  summary : TrainingSummary
deriving DecidableEq, Repr

/-- One enrichment loop `for (const pkg of list.slice(0, k))`: attach the
per-package collection result as `pkg.fullData` on success, and leave the
record unchanged when the collection raises (the error is only logged). -/
def attachFullData (collectOne : LabeledPkg → Except String ρ) (k : Nat)
    (pkgs : List (EnrichedPkg ρ)) : List (EnrichedPkg ρ) :=
  (pkgs.take k).map (fun p =>
    match collectOne p.pkg with
    | .ok d => { p with fullData := some d }
    | .error _ => p) ++ pkgs.drop k

/-- `DataCollectionOrchestrator.collectLabeledTrainingData`: truncate the
malicious list to the requested count (`slice(0, maliciousCount)`), take the
benign list as returned by the benign service (which already honours
`benignCount`), enrich the first 10 malicious and first 50 benign packages
with full data (`slice(0, 10)` / `slice(0, 50)`), and compute the summary
counts.  The 10/50 caps are literal constants of the source. -/
def collectLabeledTrainingData (collectOne : LabeledPkg → Except String ρ)
    (maliciousPackages benignPackages : List LabeledPkg)
    (maliciousCount : Nat) : TrainingData ρ :=
  let malicious0 := (maliciousPackages.take maliciousCount).map (fun p => EnrichedPkg.mk p none)
  let benign0 := benignPackages.map (fun p => EnrichedPkg.mk p none)
  let malicious := attachFullData collectOne 10 malicious0
  let benign := attachFullData collectOne 50 benign0
  { malicious := malicious
    benign := benign
    summary :=
      { totalMalicious := malicious.length
        totalBenign := benign.length
        totalWithFullData :=
          (malicious.filter (fun p => p.fullData.isSome)).length
            + (benign.filter (fun p => p.fullData.isSome)).length } }

theorem attachFullData_drop (collectOne : LabeledPkg → Except String ρ) (k : Nat)
    (pkgs : List (EnrichedPkg ρ)) :
    ∀ p ∈ (attachFullData collectOne k pkgs).drop k, p ∈ pkgs.drop k := by
  intro p hp
  unfold attachFullData at hp
  rw [List.drop_append_eq_append_drop] at hp
  rcases List.mem_append.1 hp with h | h
  · refine absurd h ?_
    have hlen : ((pkgs.take k).map (fun p =>
        match collectOne p.pkg with
        | .ok d => { p with fullData := some d }
        | .error _ => p)).length ≤ k := by
      rw [List.length_map, List.length_take]
      exact Nat.min_le_left _ _
    rw [List.drop_eq_nil_of_le hlen]
    simp
  · exact List.mem_of_mem_drop h

/-- C9: full data is attached to at most the first 10 malicious and the
first 50 benign packages — every record past those positions carries no
`fullData` — regardless of the requested counts and collected lists; and
the returned summary consists solely of the three counts computed from the
returned lists, with no mention of the caps. -/
theorem training_fullData_cap (collectOne : LabeledPkg → Except String ρ)
    (mal ben : List LabeledPkg) (mc : Nat) :
    ((collectLabeledTrainingData collectOne mal ben mc).malicious.drop 10).all
        (fun p => p.fullData.isNone) = true
    ∧ ((collectLabeledTrainingData collectOne mal ben mc).benign.drop 50).all
        (fun p => p.fullData.isNone) = true
    ∧ (collectLabeledTrainingData collectOne mal ben mc).summary
        = { totalMalicious := (collectLabeledTrainingData collectOne mal ben mc).malicious.length
            totalBenign := (collectLabeledTrainingData collectOne mal ben mc).benign.length
            totalWithFullData :=
              ((collectLabeledTrainingData collectOne mal ben mc).malicious.filter
                  (fun p => p.fullData.isSome)).length
                + ((collectLabeledTrainingData collectOne mal ben mc).benign.filter
                    (fun p => p.fullData.isSome)).length } := by
  refine ⟨?_, ?_, rfl⟩
  · rw [List.all_eq_true]
    intro p hp
    have hmem := List.mem_of_mem_drop (attachFullData_drop collectOne 10 _ p hp)
    rcases List.mem_map.1 hmem with ⟨q, _, rfl⟩
    rfl
  · rw [List.all_eq_true]
    intro p hp
    have hmem := List.mem_of_mem_drop (attachFullData_drop collectOne 50 _ p hp)
    rcases List.mem_map.1 hmem with ⟨q, _, rfl⟩
    rfl

/-! ### Transitive dependency traversal (C10):
`dependenciesService.buildDependencyTree` -/

/-- One `{name, version}` entry of a fetched direct-dependency list. -/
structure DepRef where
  name : String
  version : String
deriving DecidableEq, Repr

/-- One node pushed onto `transitiveDeps`. -/
structure TreeDep where
  name : String
  version : String
  depth : Nat
  parent : String
deriving DecidableEq, Repr

/-- The recursion of `buildDependencyTree` with its fuel made explicit:
the fuel is `maxDepth - currentDepth`, which strictly decreases at each
recursive call (`currentDepth + 1` with the same `maxDepth`), so the
traversal terminates.  `fetch` stands for `fetchDependencies` (raising on
failure) and `resolve` for `resolveVersion` (total — it catches its own
errors).  The `visited` list is the path-copy semantics of
`new Set(visited)` after `visited.add(key)`. -/
def buildDepTreeGo (fetch : String → String → Except String (List DepRef))
    (resolve : String → String → String) :
    Nat → String → String → Nat → Nat → List String → List TreeDep
  | 0, _, _, _, _, _ => []
  | fuel + 1, packageName, version, maxDepth, currentDepth, visited =>
    if maxDepth ≤ currentDepth then []
    else if visited.contains (packageName ++ "@" ++ version) then []
    else
      match fetch packageName version with
      | .error _ => []
      | .ok deps =>
        (deps.map (fun dep =>
          ({ name := dep.name, version := resolve dep.name dep.version,
             depth := currentDepth + 1, parent := packageName } : TreeDep)
          :: (if currentDepth + 1 < maxDepth then
                buildDepTreeGo fetch resolve fuel dep.name (resolve dep.name dep.version)
                  maxDepth (currentDepth + 1)
                  ((packageName ++ "@" ++ version) :: visited)
              else []))).flatten

/-- `dependenciesService.buildDependencyTree`. -/
def buildDependencyTree (fetch : String → String → Except String (List DepRef))
    (resolve : String → String → String) (packageName version : String)
    (maxDepth currentDepth : Nat) (visited : List String) : List TreeDep :=
  buildDepTreeGo fetch resolve (maxDepth - currentDepth) packageName version
    maxDepth currentDepth visited

theorem buildDepTreeGo_depth (fetch : String → String → Except String (List DepRef))
    (resolve : String → String → String) :
    ∀ (fuel : Nat) (n v : String) (maxDepth currentDepth : Nat) (visited : List String),
      ∀ node ∈ buildDepTreeGo fetch resolve fuel n v maxDepth currentDepth visited,
        currentDepth < node.depth ∧ node.depth ≤ maxDepth := by
  intro fuel
  induction fuel with
  | zero =>
    intro n v maxDepth currentDepth visited node hnode
    simp [buildDepTreeGo] at hnode
  | succ fuel ih =>
    intro n v maxDepth currentDepth visited node hnode
    simp only [buildDepTreeGo] at hnode
    by_cases hd : maxDepth ≤ currentDepth
    · rw [if_pos hd] at hnode; simp at hnode
    · rw [if_neg hd] at hnode
      by_cases hv : visited.contains (n ++ "@" ++ v) = true
      · rw [if_pos hv] at hnode; simp at hnode
      · rw [if_neg hv] at hnode
        cases hf : fetch n v with
        | error e => rw [hf] at hnode; simp at hnode
        | ok deps =>
          rw [hf] at hnode
          rcases List.mem_flatten.1 hnode with ⟨l, hl, hnl⟩
          rcases List.mem_map.1 hl with ⟨dep, _, rfl⟩
          rcases List.mem_cons.1 hnl with rfl | hsub
          · refine ⟨?_, ?_⟩
            · show currentDepth < currentDepth + 1
              omega
            · show currentDepth + 1 ≤ maxDepth
              omega
          · by_cases hlt : currentDepth + 1 < maxDepth
            · rw [if_pos hlt] at hsub
              have hrec := ih dep.name (resolve dep.name dep.version) maxDepth
                (currentDepth + 1) ((n ++ "@" ++ v) :: visited) node hsub
              exact ⟨by omega, hrec.2⟩
            · rw [if_neg hlt] at hsub
              simp at hsub

/-- C10: the transitive dependency traversal terminates for every input —
it is total, its recursion being bounded by `maxDepth - currentDepth` —
a depth at or beyond `maxDepth` yields an empty result, a key already in
the `visited` set is answered by an empty leaf (circularity guard), a fetch
failure at a node yields an empty subtree rather than propagating, and
every emitted node's depth lies strictly between the current depth and
`maxDepth` inclusive. -/
theorem buildDependencyTree_bounded
    (fetch : String → String → Except String (List DepRef))
    (resolve : String → String → String) (n v : String)
    (maxDepth currentDepth : Nat) (visited : List String) :
    (maxDepth ≤ currentDepth →
      buildDependencyTree fetch resolve n v maxDepth currentDepth visited = [])
    ∧ (visited.contains (n ++ "@" ++ v) = true →
      buildDependencyTree fetch resolve n v maxDepth currentDepth visited = [])
    ∧ (∀ e, fetch n v = .error e →
      buildDependencyTree fetch resolve n v maxDepth currentDepth visited = [])
    ∧ (∀ node ∈ buildDependencyTree fetch resolve n v maxDepth currentDepth visited,
        currentDepth < node.depth ∧ node.depth ≤ maxDepth) := by
  refine ⟨?_, ?_, ?_, ?_⟩
  · intro h
    unfold buildDependencyTree
    rw [show maxDepth - currentDepth = 0 by omega]
    rfl
  · intro h
    unfold buildDependencyTree
    cases hf : maxDepth - currentDepth with
    | zero => rfl
    | succ f =>
      simp only [buildDepTreeGo]
      rw [h]
      simp
  · intro e he
    unfold buildDependencyTree
    cases hf : maxDepth - currentDepth with
    | zero => rfl
    | succ f =>
      simp only [buildDepTreeGo]
      by_cases hd : maxDepth ≤ currentDepth
      · rw [if_pos hd]
      · rw [if_neg hd]
        by_cases hv : visited.contains (n ++ "@" ++ v) = true
        · rw [if_pos hv]
        · rw [if_neg hv]
          rw [he]
  · exact buildDepTreeGo_depth fetch resolve (maxDepth - currentDepth) n v
      maxDepth currentDepth visited

def c10Fetch : String → String → Except String (List DepRef) := fun n _ =>
  if n = "a" then .ok [⟨"b", "1.0.0"⟩]
  else if n = "b" then .ok []
  else .error "not found"

def c10Resolve : String → String → String := fun _ r => r

def c10Node : TreeDep :=
  { name := "b", version := "1.0.0", depth := 1, parent := "a" }

/-- Witness for C10: depth exhaustion, the visited guard, a fetch failure,
and the depth bound of an emitted node, each at concrete inputs. -/
theorem buildDependencyTree_bounded_witness :
    buildDependencyTree c10Fetch c10Resolve "a" "1.0.0" 0 0 [] = []
    ∧ buildDependencyTree c10Fetch c10Resolve "a" "1.0.0" 3 0 ["a@1.0.0"] = []
    ∧ buildDependencyTree c10Fetch c10Resolve "zzz" "1.0.0" 3 0 [] = []
    ∧ (0 < c10Node.depth ∧ c10Node.depth ≤ 3) :=
  ⟨(buildDependencyTree_bounded c10Fetch c10Resolve "a" "1.0.0" 0 0 []).1 (by decide),
   (buildDependencyTree_bounded c10Fetch c10Resolve "a" "1.0.0" 3 0 ["a@1.0.0"]).2.1 (by decide),
   (buildDependencyTree_bounded c10Fetch c10Resolve "zzz" "1.0.0" 3 0 []).2.2.1 "not found" rfl,
   (buildDependencyTree_bounded c10Fetch c10Resolve "a" "1.0.0" 3 0 []).2.2.2 c10Node (by decide)⟩

end DataCollect
